import Mathlib

/-!
Verification of the kno notes CLI (src/main.rs): the titlecase algorithm,
the note-path resolver, the note-store ensure operation, and the tree
renderer.  Strings are modelled by Lean strings (lists of Unicode scalar
values; Rust compares and stores them as UTF-8 bytes, and byte order on
UTF-8 agrees with scalar-value order).
-/

namespace Kno

/-- Rust `char::is_whitespace`: the Unicode `White_Space` property. -/
def isRustWhitespace (c : Char) : Bool :=
  (0x09 ≤ c.toNat && c.toNat ≤ 0x0D) || c.toNat = 0x20 || c.toNat = 0x85 ||
  c.toNat = 0xA0 || c.toNat = 0x1680 || (0x2000 ≤ c.toNat && c.toNat ≤ 0x200A) ||
  c.toNat = 0x2028 || c.toNat = 0x2029 || c.toNat = 0x202F || c.toNat = 0x205F ||
  c.toNat = 0x3000

/-- Rust `str::trim`: the string with leading and trailing whitespace removed. -/
def rustTrim (s : String) : String :=
  ⟨((s.data.dropWhile isRustWhitespace).reverse.dropWhile isRustWhitespace).reverse⟩

/-- The test `contents.trim().is_empty()`, the blank-file test of `open_note`
(src/main.rs line 111). -/
def trimIsEmpty (s : String) : Bool :=
  (rustTrim s).data.isEmpty

/-- What `fs::read_to_string` can see in an existing note file: `text s` when the
bytes are valid UTF-8 decoding to `s`, `binary bs` when reading the bytes `bs`
as a `String` fails (`read_to_string` returns `Err`). -/
inductive FileData where
  | text (s : String)
  | binary (bytes : List Nat)
deriving DecidableEq

/-- The `needs_header` test of `open_note` (src/main.rs lines 109-112):
`!file_path.exists() || fs::read_to_string(..).map(|c| c.trim().is_empty()).unwrap_or(true)`.
`none` models a missing file; a failed read (`binary`) hits the `unwrap_or(true)`. -/
def needs_header (file : Option FileData) : Bool :=
  match file with
  | none => true
  | some (.text s) => trimIsEmpty s
  | some (.binary _) => true

/-- The file-contents transition of `open_note` (src/main.rs lines 109-117): if
`needs_header` holds the file is (over)written with `"{header}\n\n"`, otherwise
its contents are untouched. -/
def open_note (header : String) (file : Option FileData) : FileData :=
  match file with
  | none => .text (header ++ "\n\n")
  | some d => if needs_header (some d) then .text (header ++ "\n\n") else d

/-- The separator pattern of `titlecase` (src/main.rs line 57):
`|c| c == '-' || c == '_'`. -/
def isSeparator (c : Char) : Bool :=
  c = '-' || c = '_'

/-- Rust `str::split` on a character predicate, on the underlying character
list: every maximal separator-free run becomes a word, separators are not
retained, and consecutive separators yield empty words (`""` gives `[""]`,
`"a--b"` gives `["a", "", "b"]`). -/
def splitSep : List Char → List (List Char)
  | [] => [[]]
  | c :: rest =>
    if isSeparator c then [] :: splitSep rest
    else
      match splitSep rest with
      | [] => [[c]]
      | w :: ws => (c :: w) :: ws

/-- Rust `char::to_uppercase` collected to a `String` (src/main.rs line 63).  Only
the ASCII fragment of the Unicode table is spelled out (every character this
repository feeds it is ASCII); the structural theorems below are proved for an
arbitrary mapping `upper : Char → String`, so they do not depend on the table. -/
def charToUppercase (c : Char) : String :=
  ⟨[c.toUpper]⟩

/-- The per-word body of `titlecase` (src/main.rs lines 58-67): an empty word
is kept empty, otherwise the first character is replaced by its (possibly
multi-character) uppercase mapping and the rest of the word is unchanged. -/
def capitalizeWith (upper : Char → String) (word : List Char) : List Char :=
  match word with
  | [] => []
  | c :: rest => (upper c).data ++ rest

/-- The `titlecase` algorithm (src/main.rs lines 56-70) with an explicit uppercase mapping:
split on `-`/`_`, capitalize each word's first character, join with `" "`. -/
def titlecaseWith (upper : Char → String) (s : String) : String :=
  ⟨List.intercalate [' '] ((splitSep s.data).map (capitalizeWith upper))⟩

/-- Embeds `titlecase` from src/main.rs lines 56-70. -/
def titlecase (s : String) : String :=
  titlecaseWith charToUppercase s

/-- The test `s.starts_with('/')`: the first character is `'/'`. -/
def startsWithSlash (s : String) : Bool :=
  s.data.head? = some '/'

/-- The test `s.ends_with('/')` (src/main.rs line 85): the last character is `'/'`. -/
def endsWithSlash (s : String) : Bool :=
  s.data.getLast? = some '/'

/-- Rust `PathBuf::push`/`join` for the path strings this program builds: pushing an
absolute component replaces the path, pushing onto an empty path or onto a path
already ending in the separator appends directly, and otherwise a `/` is
inserted. -/
def pathPush (a b : String) : String :=
  if startsWithSlash b then b
  else if a.data.isEmpty || endsWithSlash a then a ++ b
  else a ++ "/" ++ b

/-- Rust `splitn(2, sep)` on the character list: at most two pieces, the split
happens at the first separator, and the second piece keeps any later
separators.  A separator-free list yields a single piece. -/
def splitn2 (sep : Char) : List Char → List (List Char)
  | [] => [[]]
  | c :: rest =>
    if c = sep then [[], rest]
    else
      match splitn2 sep rest with
      | [] => [[c]]
      | w :: ws => (c :: w) :: ws

/-- The characters after the last `'/'` (the whole list when there is none):
the basis of `Path::file_name`. -/
def afterLastSlash (l : List Char) : List Char :=
  (l.reverse.takeWhile (fun c => !(c = '/'))).reverse

/-- The position of the last occurrence of `c`, if any. -/
def lastIdxOf (c : Char) : List Char → Option Nat
  | [] => none
  | a :: rest =>
    match lastIdxOf c rest with
    | some i => some (i + 1)
    | none => if a = c then some 0 else none

/-- Rust `Path::file_name` for the relative path strings built here: the part after
the last `/`; `none` when that part is empty or is the special component `.`
or `..` (components normalization is not needed for the paths this program
forms, which always end in a nonempty `*.md` name). -/
def file_name (p : String) : Option String :=
  if afterLastSlash p.data = [] || afterLastSlash p.data = ['.']
      || afterLastSlash p.data = ['.', '.'] then none
  else some ⟨afterLastSlash p.data⟩

/-- The `split_file_at_dot` stem rule of Rust: everything before the last `.`,
except that a name with no `.`, or whose only `.` is the leading character,
is its own stem. -/
def stemOf (name : List Char) : List Char :=
  match lastIdxOf '.' name with
  | none => name
  | some 0 => name
  | some i => name.take i

/-- Rust `Path::file_stem` (src/main.rs line 94). -/
def file_stem (p : String) : Option String :=
  (file_name p).map (fun n => ⟨stemOf n.data⟩)

/-- Embeds `resolve_note` (src/main.rs lines 72-99), with today's date string passed
explicitly (`Local::now().format("%Y-%m-%d")` is an I/O input).  The path is
the relative path as a string; `none` models the two `panic` points
(`parts[1]` when the date has no hyphen, `file_stem().unwrap()`), both
unreachable for the inputs the program produces. -/
def resolve_note (today : String) (path : Option String) : Option (String × String) :=
  match path with
  | none =>
    match splitn2 '-' today.data with
    | [year, rest] =>
      some (pathPush (pathPush "daily" ⟨year⟩) (⟨rest⟩ ++ ".md"), "# " ++ today)
    | _ => none
  | some note_path =>
    if endsWithSlash note_path then
      some (pathPush note_path (today ++ ".md"), "# " ++ today)
    else
      match file_stem (note_path ++ ".md") with
      | some stem => some (note_path ++ ".md", "# " ++ titlecase stem)
      | none => none

/-- A directory subtree as the renderer reads it from disk: an entry is a file
or a directory with child entries.  The children list carries the on-disk
enumeration order of `read_dir`, which the renderer sorts itself. -/
inductive FsEntry where
  | file (name : String)
  | dir (name : String) (children : List FsEntry)

/-- The name `e.file_name()` of a directory entry. -/
def entryName : FsEntry → String
  | .file n => n
  | .dir n _ => n

/-- The `display_name` rule (src/main.rs lines 159-163): a file is shown by its raw
name, a directory with a trailing `/`. -/
def displayName : FsEntry → String
  | .file n => n
  | .dir n _ => n ++ "/"

/-- The test `name_str.starts_with('.')` (src/main.rs line 148). -/
def startsWithDot (s : String) : Bool :=
  s.data.head? = some '.'

/-- Rust `Path::extension` of a file name: the part after the last `.`; `none` when
there is no `.`, when the only `.` is the leading character, or for the
special name `..`. -/
def extension (name : String) : Option String :=
  if name.data = ['.', '.'] then none
  else
    match lastIdxOf '.' name.data with
    | none => none
    | some 0 => none
    | some i => some ⟨name.data.drop (i + 1)⟩

/-- The entry filter of `list_tree` (src/main.rs lines 141-153): a directory is
kept unless its name starts with `.`, a file is kept only when its extension
is exactly `md`. -/
def keepEntry : FsEntry → Bool
  | .dir n _ => !startsWithDot n
  | .file n => extension n == some "md"

/-- Modelled from the spec: the "notes-visible" display mode described in the
spec (its `--show-notes` listing flag) does not occur in src/main.rs, whose
`list_tree` always shows `md` files; per the spec's words, with the mode
disabled files are excluded entirely and only directories are shown, and with
it enabled the filter is the source one (`keepEntry`). -/
def keepEntryMode (showNotes : Bool) : FsEntry → Bool
  | .dir n _ => !startsWithDot n
  | .file n => showNotes && (extension n == some "md")

/-- Lexicographic comparison of names by Unicode scalar value; on UTF-8 this
is exactly Rust's byte order on `OsString` file names. -/
def charListLE : List Char → List Char → Bool
  | [], _ => true
  | _ :: _, [] => false
  | a :: as, b :: bs =>
    if a.toNat < b.toNat then true
    else if b.toNat < a.toNat then false
    else charListLE as bs

/-- The sort key order of `entries.sort_by_key(|e| e.file_name())`
(src/main.rs line 139): byte order of the raw names. -/
def nameLE (a b : FsEntry) : Prop :=
  charListLE (entryName a).data (entryName b).data = true

instance : DecidableRel nameLE := fun a b =>
  inferInstanceAs (Decidable (_ = true))

/-- The sort `entries.sort_by_key(|e| e.file_name())`: a stable sort by raw name
(insertion sort is stable, so it computes the same list as Rust's stable
`sort_by_key` for this total key order). -/
def sortEntries (l : List FsEntry) : List FsEntry :=
  List.insertionSort nameLE l

/-- The per-level entry list of `list_tree` (src/main.rs lines 135-153):
sorted by raw name, then filtered by `keepEntry`. -/
def prepareEntries (l : List FsEntry) : List FsEntry :=
  (sortEntries l).filter keepEntry

/-- The cutoff `max_depth.is_some_and(|m| depth >= m)` (src/main.rs line 131). -/
def depthCut (maxd : Option Nat) (depth : Nat) : Bool :=
  match maxd with
  | some m => decide (depth ≥ m)
  | none => false

/-- The depth normalization in `main` (src/main.rs line 298):
`Some(level.unwrap_or(1)).filter(|&l| l > 0)` — default 1, and 0 means
unlimited (`None`). -/
def cliDepth (level : Option Nat) : Option Nat :=
  (some (level.getD 1)).filter (fun l => decide (0 < l))

mutual

/-- Embeds `list_tree` (src/main.rs lines 130-176), as the list of lines it pushes to
`output` (each line keeps its trailing newline; the rendered string is their
concatenation).  Returns early when `depth` reaches `max_depth`; otherwise the
children are sorted by name, filtered, and rendered by the enumerate loop. -/
def list_tree (maxd : Option Nat) (depth : Nat) (pre : String)
    (children : List FsEntry) : List String :=
  if depthCut maxd depth then []
  else
    renderLoop maxd depth pre (prepareEntries children).length 0 (prepareEntries children)
termination_by (sizeOf children, 1)
decreasing_by
  have hfil : ∀ L : List FsEntry, sizeOf (L.filter keepEntry) ≤ sizeOf L := by
    intro L
    induction L with
    | nil => simp
    | cons a as ih =>
      rw [List.filter_cons]
      cases hp : keepEntry a <;> simp only [if_true, if_false, Bool.false_eq_true] <;>
        simp [List.cons.sizeOf_spec] <;> omega
  have hperm : ∀ L M : List FsEntry, L.Perm M → sizeOf L = sizeOf M := by
    intro L M hp
    induction hp with
    | nil => rfl
    | cons a _ ih => simp [List.cons.sizeOf_spec, ih]
    | swap a b l => simp [List.cons.sizeOf_spec]; omega
    | trans _ _ ih1 ih2 => omega
  have h : sizeOf (prepareEntries children) ≤ sizeOf children := by
    have h1 := hfil (sortEntries children)
    have h2 : sizeOf (sortEntries children) = sizeOf children :=
      hperm _ _ (List.perm_insertionSort nameLE children)
    show sizeOf ((sortEntries children).filter keepEntry) ≤ sizeOf children
    omega
  rcases Nat.lt_or_ge (sizeOf (prepareEntries children)) (sizeOf children) with h' | h'
  · exact Prod.Lex.left _ _ h'
  · have heq : sizeOf (prepareEntries children) = sizeOf children := le_antisymm h h'
    rw [heq]
    exact Prod.Lex.right _ (by omega)

/-- The `for (i, entry) in entries.iter().enumerate()` loop of `list_tree`
(src/main.rs lines 155-175): `n` is `entries.len()`, `i` the running index;
the last entry (`i == n - 1`) gets the `└── ` connector and a blank child
indent, the others `├── ` and a `│   ` child indent; subdirectories recurse
with the extended indent at `depth + 1`. -/
def renderLoop (maxd : Option Nat) (depth : Nat) (pre : String) (n i : Nat) :
    List FsEntry → List String
  | [] => []
  | e :: rest =>
    (pre ++ (if i == n - 1 then "└── " else "├── ") ++ displayName e ++ "\n") ::
      ((match e with
        | .file _ => []
        | .dir _ cs =>
          list_tree maxd (depth + 1)
            (pre ++ (if i == n - 1 then "    " else "│   ")) cs) ++
        renderLoop maxd depth pre n (i + 1) rest)
termination_by l => (sizeOf l, 0)
decreasing_by
  all_goals apply Prod.Lex.left
  all_goals simp
  all_goals omega

end

/-- Fuel-indexed unfolding of the `list_tree`/`renderLoop` pair (a computation
and induction device): `loopF (fuel)` agrees with `renderLoop` for any
`fuel ≥ sizeOf` of the entry list (`loopF_eq_renderLoop`). -/
def loopF (fuel : Nat) (maxd : Option Nat) (depth : Nat) (pre : String) (n i : Nat) :
    List FsEntry → List String :=
  match fuel with
  | 0 => fun _ => []
  | fuel + 1 => fun l =>
    match l with
    | [] => []
    | e :: rest =>
      (pre ++ (if i == n - 1 then "└── " else "├── ") ++ displayName e ++ "\n") ::
        ((match e with
          | .file _ => []
          | .dir _ cs =>
            if depthCut maxd (depth + 1) then []
            else
              loopF fuel maxd (depth + 1)
                (pre ++ (if i == n - 1 then "    " else "│   "))
                (prepareEntries cs).length 0 (prepareEntries cs)) ++
          loopF fuel maxd depth pre n (i + 1) rest)

/-- Fuel-indexed `list_tree`; agrees with it for `fuel ≥ sizeOf children`
(`treeF_eq_list_tree`). -/
def treeF (fuel : Nat) (maxd : Option Nat) (depth : Nat) (pre : String)
    (children : List FsEntry) : List String :=
  if depthCut maxd depth then []
  else loopF fuel maxd depth pre (prepareEntries children).length 0 (prepareEntries children)

/-- The §8 fixture: `daily/2026/02-15.md`, `sql/joins.md`,
`my-project/design-decisions.md`, `my-project/ideas.md` (children given in
on-disk order; the renderer sorts them). -/
def fixtureTree : List FsEntry :=
  [ .dir "sql" [ .file "joins.md" ],
    .dir "daily" [ .dir "2026" [ .file "02-15.md" ] ],
    .dir "my-project" [ .file "ideas.md", .file "design-decisions.md" ] ]

mutual

/-- The tree cut at a level bound: `truncList k` keeps the first `k` levels of
entries and drops everything deeper (`0` drops all entries). -/
def truncEntry (k : Nat) : FsEntry → FsEntry
  | .file f => .file f
  | .dir d cs => .dir d (truncList k cs)

def truncList : Nat → List FsEntry → List FsEntry
  | 0, _ => []
  | _ + 1, [] => []
  | k + 1, e :: rest => truncEntry k e :: truncList (k + 1) rest

end

theorem sizeOf_filter_le (p : FsEntry → Bool) (l : List FsEntry) :
    sizeOf (l.filter p) ≤ sizeOf l := by
  induction l with
  | nil => simp
  | cons a as ih =>
    rw [List.filter_cons]
    cases hp : p a <;> simp only [if_true, if_false, Bool.false_eq_true] <;>
      simp [List.cons.sizeOf_spec] <;> omega

theorem sizeOf_perm {l l' : List FsEntry} (h : l.Perm l') : sizeOf l = sizeOf l' := by
  induction h with
  | nil => rfl
  | cons a _ ih => simp [List.cons.sizeOf_spec, ih]
  | swap a b l => simp [List.cons.sizeOf_spec]; omega
  | trans _ _ ih1 ih2 => omega

theorem sizeOf_prepare_le (l : List FsEntry) : sizeOf (prepareEntries l) ≤ sizeOf l := by
  have h1 := sizeOf_filter_le keepEntry (sortEntries l)
  have h2 : sizeOf (sortEntries l) = sizeOf l :=
    sizeOf_perm (List.perm_insertionSort nameLE l)
  show sizeOf ((sortEntries l).filter keepEntry) ≤ sizeOf l
  omega

theorem charListLE_total : ∀ (l m : List Char),
    charListLE l m = true ∨ charListLE m l = true
  | [], _ => Or.inl rfl
  | _ :: _, [] => Or.inr rfl
  | a :: as, b :: bs => by
    simp only [charListLE]
    rcases Nat.lt_trichotomy a.toNat b.toNat with h | h | h
    · left; rw [if_pos h]
    · rw [if_neg (by omega), if_neg (by omega), if_neg (by omega), if_neg (by omega)]
      exact charListLE_total as bs
    · right; rw [if_pos h]

theorem charListLE_trans : ∀ (l m k : List Char), charListLE l m = true →
    charListLE m k = true → charListLE l k = true
  | [], _, _, _, _ => rfl
  | _ :: _, [], _, h1, _ => by simp [charListLE] at h1
  | _ :: _, _ :: _, [], _, h2 => by simp [charListLE] at h2
  | a :: as, b :: bs, c :: cs, h1, h2 => by
    simp only [charListLE] at h1 h2 ⊢
    rcases Nat.lt_trichotomy a.toNat b.toNat with hab | hab | hab
    · rcases Nat.lt_trichotomy b.toNat c.toNat with hbc | hbc | hbc
      · rw [if_pos (by omega)]
      · rw [if_pos (by omega)]
      · rw [if_neg (by omega), if_pos hbc] at h2
        exact absurd h2 (by simp)
    · rw [if_neg (by omega), if_neg (by omega)] at h1
      rcases Nat.lt_trichotomy b.toNat c.toNat with hbc | hbc | hbc
      · rw [if_pos (by omega)]
      · rw [if_neg (by omega), if_neg (by omega)] at h2
        rw [if_neg (by omega), if_neg (by omega)]
        exact charListLE_trans as bs cs h1 h2
      · rw [if_neg (by omega), if_pos hbc] at h2
        exact absurd h2 (by simp)
    · rw [if_neg (by omega), if_pos hab] at h1
      exact absurd h1 (by simp)

theorem loopF_eq_renderLoop :
    ∀ (fuel : Nat) (maxd : Option Nat) (depth : Nat) (pre : String) (n i : Nat)
      (l : List FsEntry), sizeOf l ≤ fuel →
      loopF fuel maxd depth pre n i l = renderLoop maxd depth pre n i l := by
  intro fuel
  induction fuel with
  | zero =>
    intro maxd depth pre n i l hl
    exact absurd hl (by cases l <;> simp <;> omega)
  | succ fuel ih =>
    intro maxd depth pre n i l hl
    cases l with
    | nil =>
      rw [loopF, renderLoop.eq_def]
    | cons e rest =>
      have hrest : sizeOf rest ≤ fuel := by
        have := List.cons.sizeOf_spec e rest
        have : 1 ≤ sizeOf e := by cases e <;> simp <;> omega
        omega
      rw [loopF, renderLoop.eq_def]
      dsimp only
      congr 1
      congr 1
      · cases e with
        | file name => rfl
        | dir name cs =>
          dsimp only
          have hcs : sizeOf (prepareEntries cs) ≤ fuel := by
            have h1 := sizeOf_prepare_le cs
            have h2 := List.cons.sizeOf_spec (FsEntry.dir name cs) rest
            have h3 := FsEntry.dir.sizeOf_spec name cs
            omega
          rw [list_tree.eq_def]
          by_cases hcut : depthCut maxd (depth + 1) = true
          · rw [if_pos hcut, if_pos hcut]
          · rw [if_neg hcut, if_neg hcut]
            exact ih maxd (depth + 1) _ _ _ _ hcs
      · exact ih maxd depth pre n (i + 1) rest hrest

theorem treeF_eq_list_tree (fuel : Nat) (maxd : Option Nat) (depth : Nat) (pre : String)
    (children : List FsEntry) (h : sizeOf children ≤ fuel) :
    treeF fuel maxd depth pre children = list_tree maxd depth pre children := by
  rw [treeF, list_tree.eq_def]
  by_cases hcut : depthCut maxd depth = true
  · rw [if_pos hcut, if_pos hcut]
  · rw [if_neg hcut, if_neg hcut]
    exact loopF_eq_renderLoop fuel maxd depth pre _ 0 _
      (le_trans (sizeOf_prepare_le children) h)

theorem mem_dropWhile_self {p : Char → Bool} {c : Char} {l : List Char}
    (hc : c ∈ l) (hp : p c = false) : c ∈ l.dropWhile p := by
  have hc' : c ∈ l.takeWhile p ++ l.dropWhile p := by
    rw [List.takeWhile_append_dropWhile]; exact hc
  rcases List.mem_append.mp hc' with h1 | h1
  · exact absurd (List.mem_takeWhile_imp h1) (by simp [hp])
  · exact h1

theorem trimIsEmpty_eq_false {s : String} {c : Char}
    (hc : c ∈ s.data) (hw : isRustWhitespace c = false) : trimIsEmpty s = false := by
  have h2 : c ∈ (s.data.dropWhile isRustWhitespace).reverse.dropWhile isRustWhitespace :=
    mem_dropWhile_self (List.mem_reverse.mpr (mem_dropWhile_self hc hw)) hw
  have h3 : c ∈ ((s.data.dropWhile isRustWhitespace).reverse.dropWhile
      isRustWhitespace).reverse := List.mem_reverse.mpr h2
  show (((s.data.dropWhile isRustWhitespace).reverse.dropWhile
      isRustWhitespace).reverse).isEmpty = false
  cases hl : ((s.data.dropWhile isRustWhitespace).reverse.dropWhile
      isRustWhitespace).reverse with
  | nil => rw [hl] at h3; cases h3
  | cons a as => rfl

theorem heading_trim_nonempty {hd t : String} (h : hd = "# " ++ t) :
    trimIsEmpty (hd ++ "\n\n") = false := by
  have hmem : '#' ∈ (hd ++ "\n\n").data := by
    rw [h]
    show '#' ∈ (("# " ++ t) ++ "\n\n").data
    rw [String.data_append, String.data_append]
    exact List.mem_append.mpr (Or.inl (List.mem_append.mpr (Or.inl (by decide))))
  exact trimIsEmpty_eq_false hmem (by decide)

theorem resolve_note_heading {today : String} {p : Option String} {rp hd : String}
    (h : resolve_note today p = some (rp, hd)) : ∃ t, hd = "# " ++ t := by
  cases p with
  | none =>
    simp only [resolve_note] at h
    rcases hs : splitn2 '-' today.data with _ | ⟨y, _ | ⟨r, _ | ⟨c, tl⟩⟩⟩ <;>
        rw [hs] at h <;> simp at h
    exact ⟨today, h.2.symm⟩
  | some np =>
    simp only [resolve_note] at h
    by_cases he : endsWithSlash np = true
    · rw [if_pos he] at h
      simp at h
      exact ⟨today, h.2.symm⟩
    · rw [if_neg he] at h
      rcases hfs : file_stem (np ++ ".md") with _ | st <;> rw [hfs] at h <;> simp at h
      exact ⟨titlecase st, h.2.symm⟩

/-- C1: ensuring a resolved note twice with no intervening write is a no-op after
the first call, and a file whose trimmed contents are non-empty is never
touched by the ensure operation. -/
theorem c1_ensure_idempotent :
    (∀ (today : String) (p : Option String) (rp hd : String) (file : Option FileData),
        resolve_note today p = some (rp, hd) →
        open_note hd (some (open_note hd file)) = open_note hd file)
  ∧ (∀ (hd s : String), trimIsEmpty s = false →
        open_note hd (some (.text s)) = .text s) := by
  constructor
  · intro today p rp hd file hres
    obtain ⟨t, ht⟩ := resolve_note_heading hres
    have hne : trimIsEmpty (hd ++ "\n\n") = false := heading_trim_nonempty ht
    cases file with
    | none => simp [open_note, needs_header, hne]
    | some d =>
      cases d with
      | text s =>
        by_cases hts : trimIsEmpty s = true
        · simp [open_note, needs_header, hts, hne]
        · simp [open_note, needs_header, hts, hne]
      | binary bs => simp [open_note, needs_header, hne]
  · intro hd s hs
    simp [open_note, needs_header, hs]

/-- Witness for C1 at the daily note of 2026-10-12 and a note with real content. -/
theorem c1_ensure_idempotent_witness :
    open_note "# 2026-10-12" (some (open_note "# 2026-10-12" none)) =
      open_note "# 2026-10-12" none
  ∧ open_note "# Joins" (some (.text "# Joins\n\nreal content\n")) =
      .text "# Joins\n\nreal content\n" :=
  ⟨c1_ensure_idempotent.1 "2026-10-12" none "daily/2026/10-12.md" "# 2026-10-12" none
      (by decide),
   c1_ensure_idempotent.2 "# Joins" "# Joins\n\nreal content\n" (by decide)⟩

/-- C3: the ensure operation writes exactly `header ++ "\n\n"` when the file is
missing or its trimmed contents are empty (a whitespace-only file behaves like a
missing one), and leaves a file with non-blank contents unchanged. -/
theorem c3_initialization_exact :
    (∀ (hd : String), open_note hd none = .text (hd ++ "\n\n"))
  ∧ (∀ (hd s : String), trimIsEmpty s = true →
        open_note hd (some (.text s)) = .text (hd ++ "\n\n") ∧
        open_note hd (some (.text s)) = open_note hd none)
  ∧ (∀ (hd s : String), trimIsEmpty s = false →
        open_note hd (some (.text s)) = .text s) := by
  refine ⟨fun hd => rfl, fun hd s hs => ?_, fun hd s hs => ?_⟩
  · constructor <;> simp [open_note, needs_header, hs]
  · simp [open_note, needs_header, hs]

/-- Witness for C3: a whitespace-only file is overwritten exactly like a missing
file; a non-blank file is kept. -/
theorem c3_initialization_exact_witness :
    (open_note "# Foo" (some (.text " \n\t ")) = .text "# Foo\n\n" ∧
      open_note "# Foo" (some (.text " \n\t ")) = open_note "# Foo" none)
  ∧ open_note "# Foo" (some (.text "# Foo\n\nnotes\n")) = .text "# Foo\n\nnotes\n" :=
  ⟨c3_initialization_exact.2.1 "# Foo" " \n\t " (by decide),
   c3_initialization_exact.2.2 "# Foo" "# Foo\n\nnotes\n" (by decide)⟩

/-- C10: when the existing file's bytes cannot be read as a string, the
`unwrap_or(true)` in `open_note` treats it as needing initialization and
overwrites it with `header ++ "\n\n"`, whatever the bytes were. -/
theorem c10_unreadable_overwritten :
    ∀ (hd : String) (bs : List Nat),
      open_note hd (some (.binary bs)) = .text (hd ++ "\n\n") :=
  fun _ _ => rfl

theorem splitSep_no_sep {l : List Char} (h : ∀ c ∈ l, isSeparator c = false) :
    splitSep l = [l] := by
  induction l with
  | nil => rfl
  | cons c rest ih =>
    have hc : isSeparator c = false := h c (List.mem_cons_self c rest)
    have hr := ih (fun x hx => h x (List.mem_cons_of_mem c hx))
    simp [splitSep, hc, hr]

/-- C2: `titlecase` splits on `-`/`_`, replaces each word's first character by
its uppercase mapping (whatever that mapping is, including multi-character
expansions), keeps the remainder of each word verbatim, and joins with single
spaces; on a separator-free word only the first character changes, and empty
words pass through (consecutive separators give consecutive spaces). -/
theorem c2_titlecase_shape :
    (∀ (upper : Char → String) (c : Char) (rest : List Char),
        (∀ x ∈ c :: rest, isSeparator x = false) →
        titlecaseWith upper ⟨c :: rest⟩ = ⟨(upper c).data ++ rest⟩)
  ∧ titlecase "ALLCAPS" = "ALLCAPS"
  ∧ titlecase "joins" = "Joins"
  ∧ titlecase "design-decisions" = "Design Decisions"
  ∧ titlecase "my_project" = "My Project"
  ∧ titlecase "a--b" = "A  B" := by
  refine ⟨?_, by decide, by decide, by decide, by decide, by decide⟩
  intro upper c rest h
  unfold titlecaseWith
  rw [show (⟨c :: rest⟩ : String).data = c :: rest from rfl, splitSep_no_sep h]
  simp [capitalizeWith, List.intercalate]

/-- Witness for C2 on the separator-free word `joins`. -/
theorem c2_titlecase_shape_witness :
    titlecaseWith charToUppercase ⟨'j' :: "oins".data⟩ =
      ⟨(charToUppercase 'j').data ++ "oins".data⟩ :=
  c2_titlecase_shape.1 charToUppercase 'j' "oins".data (by decide)

theorem takeWhile_all {p : Char → Bool} {l : List Char} (h : ∀ x ∈ l, p x = true) :
    l.takeWhile p = l := by
  induction l with
  | nil => rfl
  | cons a as ih =>
    rw [List.takeWhile_cons_of_pos (h a (List.mem_cons_self a as)),
      ih (fun x hx => h x (List.mem_cons_of_mem a hx))]

theorem takeWhile_append_stop {p : Char → Bool} {l₁ l₂ : List Char} {a : Char}
    (h : ∀ x ∈ l₁, p x = true) (ha : p a = false) :
    (l₁ ++ a :: l₂).takeWhile p = l₁ := by
  induction l₁ with
  | nil => simp [List.takeWhile_cons, ha]
  | cons b bs ih =>
    rw [List.cons_append, List.takeWhile_cons_of_pos (h b (List.mem_cons_self b bs)),
      ih (fun x hx => h x (List.mem_cons_of_mem b hx))]

theorem afterLastSlash_no_slash {l : List Char} (h : '/' ∉ l) : afterLastSlash l = l := by
  unfold afterLastSlash
  rw [takeWhile_all (fun x hx => ?_), List.reverse_reverse]
  have : x ≠ '/' := fun he => h (he ▸ List.mem_reverse.mp hx)
  simp [this]

theorem afterLastSlash_append {x y : List Char} (h : '/' ∉ y) :
    afterLastSlash (x ++ '/' :: y) = y := by
  unfold afterLastSlash
  rw [List.reverse_append, List.reverse_cons, List.append_assoc,
    show (['/'] ++ x.reverse) = '/' :: x.reverse from rfl,
    takeWhile_append_stop (fun c hc => ?_) (by simp), List.reverse_reverse]
  have : c ≠ '/' := fun he => h (he ▸ List.mem_reverse.mp hc)
  simp [this]

theorem lastIdxOf_eq_none {c : Char} {l : List Char} (h : c ∉ l) : lastIdxOf c l = none := by
  induction l with
  | nil => rfl
  | cons a as ih =>
    have ha : ¬ a = c := fun he => h (he ▸ List.mem_cons_self a as)
    simp [lastIdxOf, ih (fun hm => h (List.mem_cons_of_mem a hm)), ha]

theorem lastIdxOf_append_cons {b m : List Char} (hb : '.' ∉ b) (hm : '.' ∉ m) :
    lastIdxOf '.' (b ++ '.' :: m) = some b.length := by
  induction b with
  | nil => simp [lastIdxOf, lastIdxOf_eq_none hm]
  | cons a as ih =>
    simp [lastIdxOf, ih (fun h => hb (List.mem_cons_of_mem a h))]

theorem stemOf_append_md {b : List Char} (hb : '.' ∉ b) (hne : b ≠ []) :
    stemOf (b ++ ".md".data) = b := by
  unfold stemOf
  rw [show b ++ ".md".data = b ++ '.' :: "md".data from rfl,
    lastIdxOf_append_cons hb (by decide)]
  obtain ⟨n, hn⟩ : ∃ n, b.length = n + 1 := by
    cases b with
    | nil => exact absurd rfl hne
    | cons x xs => exact ⟨xs.length, rfl⟩
  rw [hn]
  show (b ++ '.' :: "md".data).take (n + 1) = b
  rw [← hn, List.take_left]

theorem splitn2_first {sep : Char} {y : List Char} (r : List Char) (hy : sep ∉ y) :
    splitn2 sep (y ++ sep :: r) = [y, r] := by
  induction y with
  | nil => simp [splitn2]
  | cons a as ih =>
    have ha : ¬ a = sep := fun h => hy (by rw [h]; exact List.mem_cons_self _ _)
    simp [splitn2, ha, ih (fun hm => hy (List.mem_cons_of_mem a hm))]

theorem head?_append_ne {l m : List Char} (hl : l.head? ≠ some '/')
    (hm : m.head? ≠ some '/') : (l ++ m).head? ≠ some '/' := by
  cases l with
  | nil => simpa using hm
  | cons a as => simpa using hl

theorem pathPush_insert (a b : String) (hb : b.data.head? ≠ some '/')
    (ha : a.data ≠ []) (hal : a.data.getLast? ≠ some '/') :
    pathPush a b = ⟨a.data ++ '/' :: b.data⟩ := by
  have h2 : a.data.isEmpty = false := by
    cases hd : a.data with
    | nil => exact absurd hd ha
    | cons x xs => rfl
  rw [pathPush, if_neg (by simp [startsWithSlash, hb]),
    if_neg (by simp [h2, endsWithSlash, hal])]
  apply String.ext
  simp [List.append_assoc]

theorem pathPush_direct (a b : String) (hb : b.data.head? ≠ some '/')
    (hal : a.data.getLast? = some '/') :
    pathPush a b = ⟨a.data ++ b.data⟩ := by
  rw [pathPush, if_neg (by simp [startsWithSlash, hb]),
    if_pos (by simp [endsWithSlash, hal])]
  exact String.ext (by simp)

/-- C4: with no path expression, resolution splits today's date at its first
hyphen into a year and a month-day part, yields the relative path
`daily/<YEAR>/<MM-DD>.md`, and the heading `# <today>`. -/
theorem c4_resolve_none :
    ∀ (y r : List Char), '-' ∉ y → '/' ∉ y → y ≠ [] → '/' ∉ r →
      resolve_note ⟨y ++ '-' :: r⟩ none =
        some (⟨"daily/".data ++ y ++ '/' :: (r ++ ".md".data)⟩, "# " ++ ⟨y ++ '-' :: r⟩) := by
  intro y r hy hsy hne hsr
  simp only [resolve_note]
  rw [splitn2_first r hy]
  change some (pathPush (pathPush "daily" ⟨y⟩) (⟨r⟩ ++ ".md"),
    "# " ++ (⟨y ++ '-' :: r⟩ : String)) = _
  have e1 : pathPush "daily" ⟨y⟩ = ⟨"daily".data ++ '/' :: y⟩ :=
    pathPush_insert "daily" ⟨y⟩
      (fun h => hsy (List.mem_of_mem_head? (Option.mem_def.mpr h)))
      (by decide) (by decide)
  rw [e1]
  have e2 : pathPush ⟨"daily".data ++ '/' :: y⟩ (⟨r⟩ ++ ".md") =
      ⟨("daily".data ++ '/' :: y) ++ '/' :: (⟨r⟩ ++ ".md").data⟩ := by
    apply pathPush_insert
    · exact head?_append_ne
        (fun h => hsr (List.mem_of_mem_head? (Option.mem_def.mpr h))) (by decide)
    · simp
    · rw [show ("daily".data ++ '/' :: y : List Char) = ("daily".data ++ ['/']) ++ y by
        simp]
      rw [List.getLast?_append_of_ne_nil _ hne]
      intro h
      obtain ⟨hn, he⟩ := List.mem_getLast?_eq_getLast (Option.mem_def.mpr h)
      exact hsy (by rw [he]; exact List.getLast_mem hn)
  rw [e2]
  refine congrArg some (congrArg (fun z => (z, "# " ++ (⟨y ++ '-' :: r⟩ : String))) ?_)
  apply String.ext
  show ("daily".data ++ '/' :: y) ++ '/' :: (r ++ ".md".data) =
    "daily/".data ++ y ++ '/' :: (r ++ ".md".data)
  simp [List.append_assoc]

/-- Witness for C4 on the date 2026-10-12. -/
theorem c4_resolve_none_witness :
    resolve_note ⟨"2026".data ++ '-' :: "10-12".data⟩ none =
      some (⟨"daily/".data ++ "2026".data ++ '/' :: ("10-12".data ++ ".md".data)⟩,
        "# " ++ ⟨"2026".data ++ '-' :: "10-12".data⟩) :=
  c4_resolve_none "2026".data "10-12".data (by decide) (by decide) (by decide) (by decide)

theorem startsWithSlash_append_md_false {t : String} (h : startsWithSlash t = false) :
    (t ++ ".md").data.head? ≠ some '/' := by
  rw [String.data_append]
  exact head?_append_ne (of_decide_eq_false h) (by decide)

/-- C5: an input ending in `/` is treated as a directory: the resolved path is
`<input><today>.md` and the heading is `# <today>`, with no titlecasing. -/
theorem c5_trailing_slash :
    ∀ (today note_path : String), endsWithSlash note_path = true →
      startsWithSlash today = false →
      resolve_note today (some note_path) =
        some (note_path ++ today ++ ".md", "# " ++ today) := by
  intro today np he hs
  simp only [resolve_note]
  rw [if_pos he]
  have hb : (today ++ ".md").data.head? ≠ some '/' := startsWithSlash_append_md_false hs
  rw [pathPush_direct np (today ++ ".md") hb (of_decide_eq_true he)]
  refine congrArg some (congrArg (fun z => (z, "# " ++ today)) ?_)
  apply String.ext
  simp

/-- Witness for C5 on the multi-level directory input `a/b/`. -/
theorem c5_trailing_slash_witness :
    resolve_note "2026-10-12" (some "a/b/") =
      some ("a/b/" ++ "2026-10-12" ++ ".md", "# " ++ "2026-10-12") :=
  c5_trailing_slash "2026-10-12" "a/b/" (by decide) (by decide)

theorem getLast?_ne_slash_of_not_mem {b : List Char} (hb : b ≠ []) (h : '/' ∉ b)
    {x : List Char} : (x ++ b).getLast? ≠ some '/' := by
  rw [List.getLast?_append_of_ne_nil _ hb]
  intro hh
  obtain ⟨hn, he⟩ := List.mem_getLast?_eq_getLast (Option.mem_def.mpr hh)
  exact h (by rw [he]; exact List.getLast_mem hn)

theorem file_stem_of_segment {nd b : List Char} (hb : b ≠ []) (hslash : '/' ∉ b)
    (hdot : '.' ∉ b) (hals : afterLastSlash (nd ++ ".md".data) = b ++ ".md".data) :
    file_stem ⟨nd ++ ".md".data⟩ = some ⟨b⟩ := by
  unfold file_stem file_name
  rw [show (⟨nd ++ ".md".data⟩ : String).data = nd ++ ".md".data from rfl, hals]
  have hlen : (b ++ ".md".data).length = b.length + 3 := by simp
  have h1 : (b ++ ".md".data) ≠ [] := by
    intro h; rw [h] at hlen; simp at hlen
  have h2 : (b ++ ".md".data) ≠ ['.'] := by
    intro h; rw [h] at hlen; simp at hlen
  have h3 : (b ++ ".md".data) ≠ ['.', '.'] := by
    intro h; rw [h] at hlen; simp at hlen
  rw [if_neg (by simp [h1, h2, h3])]
  simp only [Option.map_some']
  exact congrArg some (congrArg String.mk (stemOf_append_md hdot hb))

/-- C6: a non-empty input without a trailing slash resolves to `<input>.md`,
and the heading titlecases only the final path segment (the file stem): both
for multi-segment inputs `x/b` and single-segment inputs `b`. -/
theorem c6_explicit_note :
    (∀ (today : String) (x b : List Char), b ≠ [] → '/' ∉ b → '.' ∉ b →
      resolve_note today (some ⟨x ++ '/' :: b⟩) =
        some (⟨x ++ '/' :: b⟩ ++ ".md", "# " ++ titlecase ⟨b⟩))
  ∧ (∀ (today : String) (b : List Char), b ≠ [] → '/' ∉ b → '.' ∉ b →
      resolve_note today (some ⟨b⟩) =
        some (⟨b⟩ ++ ".md", "# " ++ titlecase ⟨b⟩))
  ∧ resolve_note "2026-10-12" (some "sql/joins") =
      some ("sql/joins.md", "# Joins") := by
  refine ⟨?_, ?_, by decide⟩
  · intro today x b hb hslash hdot
    have hmem : '/' ∉ b ++ ".md".data := by
      intro hm
      rcases List.mem_append.mp hm with h | h
      · exact hslash h
      · exact absurd h (by decide)
    simp only [resolve_note]
    have hend : endsWithSlash ⟨x ++ '/' :: b⟩ = false := by
      apply decide_eq_false
      show ¬ (x ++ '/' :: b).getLast? = some '/'
      rw [show (x ++ '/' :: b : List Char) = (x ++ ['/']) ++ b by simp]
      exact getLast?_ne_slash_of_not_mem hb hslash
    rw [if_neg (by simp [hend])]
    have hfs : file_stem (⟨x ++ '/' :: b⟩ ++ ".md") = some ⟨b⟩ := by
      rw [show (⟨x ++ '/' :: b⟩ : String) ++ ".md" = ⟨(x ++ '/' :: b) ++ ".md".data⟩
        from String.ext (by simp)]
      apply file_stem_of_segment hb hslash hdot
      rw [show ((x ++ '/' :: b) ++ ".md".data : List Char) = x ++ '/' :: (b ++ ".md".data)
        by simp]
      exact afterLastSlash_append hmem
    rw [hfs]
  · intro today b hb hslash hdot
    have hmem : '/' ∉ b ++ ".md".data := by
      intro hm
      rcases List.mem_append.mp hm with h | h
      · exact hslash h
      · exact absurd h (by decide)
    simp only [resolve_note]
    have hend : endsWithSlash ⟨b⟩ = false := by
      apply decide_eq_false
      show ¬ b.getLast? = some '/'
      intro hh
      obtain ⟨hn, he⟩ := List.mem_getLast?_eq_getLast (Option.mem_def.mpr hh)
      exact hslash (by rw [he]; exact List.getLast_mem hn)
    rw [if_neg (by simp [hend])]
    have hfs : file_stem (⟨b⟩ ++ ".md") = some ⟨b⟩ := by
      rw [show (⟨b⟩ : String) ++ ".md" = ⟨b ++ ".md".data⟩ from String.ext (by simp)]
      exact file_stem_of_segment hb hslash hdot (afterLastSlash_no_slash hmem)
    rw [hfs]

/-- Witness for C6 on the input `sql/joins`. -/
theorem c6_explicit_note_witness :
    resolve_note "2026-10-12" (some ⟨"sql".data ++ '/' :: "joins".data⟩) =
      some (⟨"sql".data ++ '/' :: "joins".data⟩ ++ ".md", "# " ++ titlecase "joins") :=
  c6_explicit_note.1 "2026-10-12" "sql".data "joins".data (by decide) (by decide) (by decide)

theorem loopF_nil (fuel : Nat) (maxd : Option Nat) (depth : Nat) (pre : String)
    (n i : Nat) : loopF fuel maxd depth pre n i [] = [] := by
  cases fuel <;> rfl

theorem loopF_line_shape :
    ∀ (fuel : Nat) (maxd : Option Nat) (depth : Nat) (pre : String) (n i : Nat)
      (l : List FsEntry) (line : String),
      (∀ e ∈ l, keepEntry e = true) → line ∈ loopF fuel maxd depth pre n i l →
      ∃ (p : String) (e : FsEntry), keepEntry e = true ∧
        (line = p ++ "├── " ++ displayName e ++ "\n" ∨
         line = p ++ "└── " ++ displayName e ++ "\n") := by
  intro fuel
  induction fuel with
  | zero =>
    intro _ _ _ _ _ l line _ hmem
    simp [loopF] at hmem
  | succ fuel ih =>
    intro maxd depth pre n i l line hk hmem
    cases l with
    | nil => simp [loopF] at hmem
    | cons e rest =>
      rw [loopF] at hmem
      rcases List.mem_cons.mp hmem with h | h
      · refine ⟨pre, e, hk e (List.mem_cons_self e rest), ?_⟩
        by_cases hlast : (i == n - 1) = true
        · right; rw [h, if_pos hlast]
        · left; rw [h, if_neg hlast]
      · rcases List.mem_append.mp h with h | h
        · cases e with
          | file nm => simp at h
          | dir nm cs =>
            dsimp only at h
            by_cases hcut : depthCut maxd (depth + 1) = true
            · rw [if_pos hcut] at h; simp at h
            · rw [if_neg hcut] at h
              exact ih _ _ _ _ _ _ _
                (fun e' he' => (List.mem_filter.mp he').2) h
        · exact ih _ _ _ _ _ _ _ (fun e' he' => hk e' (List.mem_cons_of_mem _ he')) h

/-- C7: every line a rendered tree contains shows a kept entry — a directory
whose name does not start with `.`, or a file whose extension is exactly `md` —
so dot-directories never appear at any depth; and in the spec's notes-visible
mode, disabling the mode excludes all files while dot-directories stay excluded
in either mode (the source's filter is the enabled mode). -/
theorem c7_tree_filters :
    (∀ (maxd : Option Nat) (depth : Nat) (pre : String) (children : List FsEntry)
        (line : String), line ∈ list_tree maxd depth pre children →
        ∃ (p : String) (e : FsEntry),
          (∀ d cs, e = .dir d cs → startsWithDot d = false) ∧
          (∀ f, e = .file f → extension f = some "md") ∧
          (line = p ++ "├── " ++ displayName e ++ "\n" ∨
           line = p ++ "└── " ++ displayName e ++ "\n"))
  ∧ (∀ nm : String, keepEntryMode false (.file nm) = false)
  ∧ (∀ (mode : Bool) (d : String) (cs : List FsEntry), startsWithDot d = true →
      keepEntryMode mode (.dir d cs) = false)
  ∧ (∀ e : FsEntry, keepEntryMode true e = keepEntry e) := by
  refine ⟨?_, fun _ => rfl, ?_, ?_⟩
  · intro maxd depth pre children line hline
    rw [← treeF_eq_list_tree (sizeOf children) maxd depth pre children (le_refl _)] at hline
    rw [treeF] at hline
    by_cases hcut : depthCut maxd depth = true
    · rw [if_pos hcut] at hline; simp at hline
    · rw [if_neg hcut] at hline
      obtain ⟨p, e, hke, hshape⟩ := loopF_line_shape (sizeOf children) maxd depth pre _ 0 _
        line (fun e' he' => (List.mem_filter.mp he').2) hline
      refine ⟨p, e, ?_, ?_, hshape⟩
      · intro d cs hedir
        rw [hedir] at hke
        simpa [keepEntry] using hke
      · intro f hef
        rw [hef] at hke
        simpa [keepEntry] using hke
  · intro mode d cs h
    simp [keepEntryMode, h]
  · intro e
    cases e with
    | file nm => simp [keepEntryMode, keepEntry]
    | dir nm cs => rfl

/-- Witness for C7: the line `├── daily/` of the rendered fixture comes from a
kept entry, and the enabled notes-visible mode agrees with the source filter on
a sample file. -/
theorem c7_tree_filters_witness :
    (∃ (p : String) (e : FsEntry),
      (∀ d cs, e = .dir d cs → startsWithDot d = false) ∧
      (∀ f, e = .file f → extension f = some "md") ∧
      ("├── daily/\n" = p ++ "├── " ++ displayName e ++ "\n" ∨
       "├── daily/\n" = p ++ "└── " ++ displayName e ++ "\n"))
  ∧ keepEntryMode true (.file "joins.md") = keepEntry (.file "joins.md") :=
  ⟨c7_tree_filters.1 none 0 "" fixtureTree "├── daily/\n" (by
      rw [← treeF_eq_list_tree (sizeOf fixtureTree) none 0 "" fixtureTree (le_refl _)]
      decide),
   c7_tree_filters.2.2.2 (.file "joins.md")⟩

/-- C8: at every level the rendered entries form a single list sorted by raw
name (directories and files interleaved); under the enumerate-loop invariant
`n = i + length`, the last entry takes `└── ` and the four-space child indent
while every other entry takes `├── ` and the `│   ` child indent, accumulated
onto the current indent; the §8 fixture renders accordingly. -/
theorem c8_order_connectors :
    (∀ children : List FsEntry, List.Sorted nameLE (prepareEntries children))
  ∧ (∀ (maxd : Option Nat) (depth : Nat) (pre : String) (n i : Nat) (e : FsEntry)
        (rest : List FsEntry), n = i + (e :: rest).length →
        renderLoop maxd depth pre n i (e :: rest) =
          (pre ++ (if rest.isEmpty then "└── " else "├── ") ++ displayName e ++ "\n") ::
            ((match e with
              | .file _ => []
              | .dir _ cs =>
                list_tree maxd (depth + 1)
                  (pre ++ (if rest.isEmpty then "    " else "│   ")) cs) ++
              renderLoop maxd depth pre n (i + 1) rest))
  ∧ list_tree none 0 "" fixtureTree =
      [ "├── daily/\n", "│   └── 2026/\n", "│       └── 02-15.md\n",
        "├── my-project/\n", "│   ├── design-decisions.md\n", "│   └── ideas.md\n",
        "└── sql/\n", "    └── joins.md\n" ] := by
  refine ⟨?_, ?_, ?_⟩
  · intro children
    haveI : IsTotal FsEntry nameLE :=
      ⟨fun a b => charListLE_total (entryName a).data (entryName b).data⟩
    haveI : IsTrans FsEntry nameLE :=
      ⟨fun a b c => charListLE_trans (entryName a).data (entryName b).data
        (entryName c).data⟩
    exact List.Sorted.filter keepEntry (List.sorted_insertionSort nameLE children)
  · intro maxd depth pre n i e rest hn
    have hlast : (i == n - 1) = rest.isEmpty := by
      cases rest with
      | nil => simp [hn]
      | cons f fs => simp [hn]
    rw [renderLoop.eq_def]
    dsimp only
    rw [hlast]
  · rw [← treeF_eq_list_tree (sizeOf fixtureTree) none 0 "" fixtureTree (le_refl _)]
    decide

/-- Witness for C8: a two-entry level, where the non-last entry takes `├── `. -/
theorem c8_order_connectors_witness :
    renderLoop none 0 "" 2 0 [.file "a.md", .file "b.md"] =
      ("" ++ (if ([FsEntry.file "b.md"] : List FsEntry).isEmpty then "└── " else "├── ")
          ++ displayName (.file "a.md") ++ "\n") ::
        (([] : List String) ++ renderLoop none 0 "" 2 1 [.file "b.md"]) :=
  c8_order_connectors.2.1 none 0 "" 2 0 (.file "a.md") [.file "b.md"] (by decide)

theorem entryName_trunc (k : Nat) (e : FsEntry) :
    entryName (truncEntry k e) = entryName e := by
  cases e <;> simp [truncEntry, entryName]

theorem displayName_trunc (k : Nat) (e : FsEntry) :
    displayName (truncEntry k e) = displayName e := by
  cases e <;> simp [truncEntry, displayName]

theorem keepEntry_trunc (k : Nat) (e : FsEntry) :
    keepEntry (truncEntry k e) = keepEntry e := by
  cases e <;> simp [truncEntry, keepEntry]

theorem nameLE_trunc (k : Nat) (a b : FsEntry) :
    nameLE (truncEntry k a) (truncEntry k b) ↔ nameLE a b := by
  unfold nameLE
  rw [entryName_trunc, entryName_trunc]

theorem truncList_succ (k : Nat) : ∀ l : List FsEntry,
    truncList (k + 1) l = l.map (truncEntry k)
  | [] => by simp [truncList]
  | e :: rest => by simp [truncList, truncList_succ k rest]

theorem orderedInsert_map_trunc (k : Nat) (x : FsEntry) :
    ∀ l : List FsEntry, (l.orderedInsert nameLE x).map (truncEntry k) =
      (l.map (truncEntry k)).orderedInsert nameLE (truncEntry k x)
  | [] => rfl
  | b :: bs => by
    simp only [List.orderedInsert, List.map]
    by_cases h : nameLE x b
    · rw [if_pos h, if_pos ((nameLE_trunc k x b).mpr h)]
      simp
    · rw [if_neg h, if_neg (fun hc => h ((nameLE_trunc k x b).mp hc))]
      simp [orderedInsert_map_trunc k x bs]

theorem sortEntries_map_trunc (k : Nat) : ∀ l : List FsEntry,
    sortEntries (l.map (truncEntry k)) = (sortEntries l).map (truncEntry k)
  | [] => rfl
  | b :: bs => by
    show List.insertionSort nameLE (truncEntry k b :: bs.map (truncEntry k)) =
      (List.insertionSort nameLE (b :: bs)).map (truncEntry k)
    rw [List.insertionSort, List.insertionSort]
    rw [show List.insertionSort nameLE (bs.map (truncEntry k))
        = sortEntries (bs.map (truncEntry k)) from rfl,
      sortEntries_map_trunc k bs]
    exact (orderedInsert_map_trunc k b _).symm

theorem filter_map_trunc (k : Nat) : ∀ l : List FsEntry,
    (l.map (truncEntry k)).filter keepEntry = (l.filter keepEntry).map (truncEntry k)
  | [] => rfl
  | b :: bs => by
    simp only [List.map, List.filter_cons, keepEntry_trunc]
    by_cases h : keepEntry b = true
    · simp [h, filter_map_trunc k bs]
    · simp [h, filter_map_trunc k bs]

theorem prepare_map_trunc (k : Nat) (l : List FsEntry) :
    prepareEntries (l.map (truncEntry k)) = (prepareEntries l).map (truncEntry k) := by
  unfold prepareEntries
  rw [sortEntries_map_trunc, filter_map_trunc]

mutual

theorem sizeOf_truncEntry_le : ∀ (k : Nat) (e : FsEntry),
    sizeOf (truncEntry k e) ≤ sizeOf e
  | _, .file _ => by simp [truncEntry]
  | k, .dir d cs => by
    have h := sizeOf_truncList_le k cs
    simp [truncEntry]
    omega

theorem sizeOf_truncList_le : ∀ (k : Nat) (l : List FsEntry),
    sizeOf (truncList k l) ≤ sizeOf l
  | 0, l => by
    cases l <;> simp [truncList] <;> omega
  | _ + 1, [] => by simp [truncList]
  | k + 1, e :: rest => by
    have h1 := sizeOf_truncEntry_le k e
    have h2 := sizeOf_truncList_le (k + 1) rest
    simp [truncList]
    omega

end

mutual

theorem truncEntry_eq_self : ∀ (k : Nat) (e : FsEntry), sizeOf e ≤ k →
    truncEntry k e = e
  | _, .file _, _ => by simp [truncEntry]
  | k, .dir d cs, h => by
    have hcs : sizeOf cs ≤ k := by simp at h; omega
    simp [truncEntry, truncList_eq_self k cs hcs]

theorem truncList_eq_self : ∀ (k : Nat) (l : List FsEntry), sizeOf l ≤ k →
    truncList k l = l
  | 0, l, h => absurd h (by cases l <;> simp <;> omega)
  | _ + 1, [], _ => by simp [truncList]
  | k + 1, e :: rest, h => by
    have he : sizeOf e ≤ k := by simp at h; omega
    have hr : sizeOf rest ≤ k + 1 := by simp at h; omega
    simp [truncList, truncEntry_eq_self k e he, truncList_eq_self (k + 1) rest hr]

end

theorem sizeOf_map_trunc_le (k : Nat) : ∀ l : List FsEntry,
    sizeOf (l.map (truncEntry k)) ≤ sizeOf l
  | [] => by simp
  | e :: rest => by
    have h1 := sizeOf_truncEntry_le k e
    have h2 := sizeOf_map_trunc_le k rest
    simp
    omega

theorem loopF_trunc :
    ∀ (fuel m depth : Nat) (pre : String) (n i : Nat) (l : List FsEntry),
      depth < m →
      loopF fuel (some m) depth pre n i l =
        loopF fuel none depth pre n i (l.map (truncEntry (m - depth - 1))) := by
  intro fuel
  induction fuel with
  | zero => intro _ _ _ _ _ _ _; rfl
  | succ fuel ih =>
    intro m depth pre n i l hdm
    cases l with
    | nil => rfl
    | cons e rest =>
      rw [List.map_cons, loopF, loopF]
      dsimp only
      rw [displayName_trunc]
      congr 2
      · cases e with
        | file f => simp [truncEntry]
        | dir d cs =>
          rw [show truncEntry (m - depth - 1) (.dir d cs)
              = .dir d (truncList (m - depth - 1) cs) from by simp [truncEntry]]
          dsimp only
          by_cases hc : depth + 1 ≥ m
          · rw [if_pos (show depthCut (some m) (depth + 1) = true from
                by simp [depthCut]; omega)]
            rw [show m - depth - 1 = 0 from by omega]
            rw [show truncList 0 cs = [] from by simp [truncList]]
            rw [if_neg (show ¬ depthCut none (depth + 1) = true from by simp [depthCut])]
            exact (loopF_nil _ _ _ _ _ _).symm
          · rw [if_neg (show ¬ depthCut (some m) (depth + 1) = true from
                by simp [depthCut]; omega)]
            rw [if_neg (show ¬ depthCut none (depth + 1) = true from by simp [depthCut])]
            obtain ⟨k', hk⟩ : ∃ k', m - depth - 1 = k' + 1 := ⟨m - depth - 2, by omega⟩
            rw [hk, truncList_succ, prepare_map_trunc, List.length_map]
            rw [show k' = m - (depth + 1) - 1 from by omega]
            exact ih m (depth + 1) _ _ 0 _ (by omega)
      · exact ih m depth pre n (i + 1) rest hdm

theorem list_tree_trunc (m depth : Nat) (pre : String) (children : List FsEntry) :
    list_tree (some m) depth pre children =
      list_tree none depth pre (truncList (m - depth) children) := by
  by_cases hdm : depth < m
  · obtain ⟨k', hk⟩ : ∃ k', m - depth = k' + 1 := ⟨m - depth - 1, by omega⟩
    rw [hk, truncList_succ]
    rw [← treeF_eq_list_tree (sizeOf children) (some m) depth pre children (le_refl _),
      ← treeF_eq_list_tree (sizeOf children) none depth pre
        (children.map (truncEntry k')) (sizeOf_map_trunc_le k' children)]
    rw [treeF, treeF]
    rw [if_neg (by simp [depthCut]; omega), if_neg (by simp [depthCut])]
    rw [prepare_map_trunc, List.length_map]
    have h := loopF_trunc (sizeOf children) m depth pre
      (prepareEntries children).length 0 (prepareEntries children) hdm
    rw [show m - depth - 1 = k' from by omega] at h
    exact h
  · rw [show m - depth = 0 from by omega]
    rw [list_tree.eq_def, list_tree.eq_def]
    rw [if_pos (by simp [depthCut]; omega), if_neg (by simp [depthCut])]
    rw [show truncList 0 children = [] from by simp [truncList]]
    rw [show prepareEntries [] = [] from rfl]
    rw [renderLoop.eq_def]

/-- C9: a depth bound of `m` renders exactly the first `m - depth` levels — the
bounded render equals the unbounded render of the tree truncated at that many
levels, with the root's direct children at level 0 — while `none` is unlimited:
once the bound covers the whole tree the bounded and unbounded renders agree;
and the CLI caller normalizes a missing level to depth 1 and a level of 0 to
unlimited (`none`) before calling the renderer. -/
theorem c9_depth_limiting :
    (∀ (m depth : Nat) (pre : String) (children : List FsEntry),
        list_tree (some m) depth pre children =
          list_tree none depth pre (truncList (m - depth) children))
  ∧ (∀ (m depth : Nat) (pre : String) (children : List FsEntry),
        sizeOf children ≤ m - depth →
        list_tree (some m) depth pre children = list_tree none depth pre children)
  ∧ list_tree (some 1) 0 "" fixtureTree =
      [ "├── daily/\n", "├── my-project/\n", "└── sql/\n" ]
  ∧ cliDepth none = some 1
  ∧ cliDepth (some 0) = none
  ∧ (∀ level : Nat, 0 < level → cliDepth (some level) = some level) := by
  refine ⟨list_tree_trunc, ?_, ?_, rfl, rfl, ?_⟩
  · intro m depth pre children h
    rw [list_tree_trunc, truncList_eq_self _ _ h]
  · rw [← treeF_eq_list_tree (sizeOf fixtureTree) (some 1) 0 "" fixtureTree (le_refl _)]
    decide
  · intro level h
    simp [cliDepth, Option.filter, h]

/-- Witness for C9: the saturation and normalization parts at concrete inputs. -/
theorem c9_depth_limiting_witness :
    (list_tree (some 5) 0 "" [] = list_tree none 0 "" [])
  ∧ cliDepth (some 2) = some 2 :=
  ⟨c9_depth_limiting.2.1 5 0 "" [] (by decide),
   c9_depth_limiting.2.2.2.2.2 2 (by decide)⟩

end Kno
